import Mathlib

/-!
# Verification of the cpppo Modbus/TCP polling engine core

A shallow embedding, in Lean 4, of the core of `remote/plc_modbus.py`:
the range planner (`shatter` and `merge`), the strict-timeout transport
wrapper (`ModbusTcpClientTimeout.timeout`), the poller's online/offline
bookkeeping (`poller_modbus._poller`), and the read/write classification
paths (`poller_modbus._read`, `poller_modbus._write`).

Addresses and counts are modelled as `Nat` (the source is Python 2, where
`/` on non-negative `int`s is floor division, matching `Nat.div`), and
wall-clock times as `ℚ`.

The file is organised with all definitions first, then the theorems.
-/

namespace PlcModbus

/-! ## Definitions: the range planner `shatter`

Python source (`plc_modbus.py`, `shatter`):
```
if not limit:
    if (        1 <= address <= 9999
        or  10001 <= address <= 19999
        or 100001 <= address <= 165536 ):
        limit	= 1968
    else:
        limit	= 123
while count:
    taken		= min( count, limit or count )
    yield (address,taken)
    address	       += taken
    count	       -= taken
```
-/

/-- The limit deduced from the address when none is supplied: 1968 for the
coil/status (bit) bands, 123 for every other (register) address. -/
def deducedLimit (address : Nat) : Nat :=
  if (1 ≤ address ∧ address ≤ 9999)
     ∨ (10001 ≤ address ∧ address ≤ 19999)
     ∨ (100001 ≤ address ∧ address ≤ 165536) then 1968 else 123

/-- The limit actually used by `shatter`: a supplied truthy (nonzero) limit,
else the deduced one.  Python's `if not limit` treats both `None` and `0`
as absent. -/
def effLimit (address : Nat) (limit : Option Nat) : Nat :=
  match limit with
  | none => deducedLimit address
  | some n => if n = 0 then deducedLimit address else n

/-- The `while count:` loop of `shatter`.  Each iteration takes
`min count limit` addresses, so when `limit ≥ 1` at most `count` iterations
occur; the `fuel` argument (instantiated to `count`) makes that structural.
In Python a zero `limit` reaching the loop would fail to progress; that
case is unreachable because `effLimit` is always positive, and the model
returns `[]` there. -/
def shatterGo (limit : Nat) : Nat → Nat → Nat → List (Nat × Nat)
  | 0, _, _ => []
  | fuel + 1, address, count =>
    if count = 0 ∨ limit = 0 then []
    else
      let taken := min count limit
      (address, taken) :: shatterGo limit fuel (address + taken) (count - taken)

/-- `shatter(address, count, limit)`: tile `[address, address+count)` into
sub-ranges of length at most the effective limit. -/
def shatter (address count : Nat) (limit : Option Nat) : List (Nat × Nat) :=
  shatterGo (effLimit address limit) count address count

/-- `tiles a c l`: the ranges `l` exactly tile the interval `[a, a + c)`,
in order: each range starts where the previous ended, has positive length,
and the lengths consume exactly `c`. -/
def tiles : Nat → Nat → List (Nat × Nat) → Prop
  | _, c, [] => c = 0
  | a, c, (a', t) :: rest => a' = a ∧ 1 ≤ t ∧ t ≤ c ∧ tiles (a + t) (c - t) rest

/-- Membership in the union of address intervals covered by a list of
(address, count) ranges. -/
def covers (l : List (Nat × Nat)) (x : Nat) : Prop :=
  ∃ p ∈ l, p.1 ≤ x ∧ x < p.1 + p.2

instance (l : List (Nat × Nat)) (x : Nat) : Decidable (covers l x) :=
  inferInstanceAs (Decidable (∃ p ∈ l, p.1 ≤ x ∧ x < p.1 + p.2))

/-! ## Definitions: the range planner `merge`

Python source (`plc_modbus.py`, `merge`; Python 2, so `/` is floor
division on ints):
```
input		= iter( sorted( ranges ))
base, length	= next( input )
for address, count in input:
    if length:
        if ( address / 10000 == base / 10000
             and address < base + length + ( reach or 1 )):
            length	= address + count - base
            continue
        for r in shatter( base, length, limit=limit ):
            yield r
    base, length	= address, count
for r in shatter( base, length, limit=limit ):
    yield r
```
-/

/-- Python's tuple ordering on (address, count) pairs: lexicographic. -/
def rangeLE (p q : Nat × Nat) : Prop := p.1 < q.1 ∨ (p.1 = q.1 ∧ p.2 ≤ q.2)

instance : DecidableRel rangeLE := fun p q =>
  inferInstanceAs (Decidable (p.1 < q.1 ∨ (p.1 = q.1 ∧ p.2 ≤ q.2)))

instance : IsTotal (Nat × Nat) rangeLE where
  total p q := by unfold rangeLE; omega

instance : IsTrans (Nat × Nat) rangeLE where
  trans p q r := by unfold rangeLE; omega

/-- `sorted(ranges)`: Python's sort on tuples is by the lexicographic
order `rangeLE` (it is stable, but `rangeLE` is a linear order on the
pairs, so any sorted permutation is the same list). -/
def sortRanges (l : List (Nat × Nat)) : List (Nat × Nat) :=
  List.insertionSort rangeLE l

/-- The accumulator loop of `merge`: `(base, length)` is the range being
built; each raw (unshattered) merged range is emitted when the next input
range does not merge into it.  Python's `( reach or 1 )` turns a zero
reach into 1. -/
def mergeRaw (reach : Nat) : Nat × Nat → List (Nat × Nat) → List (Nat × Nat)
  | acc, [] => [acc]
  | (base, length), (address, count) :: rest =>
    if length ≠ 0 then
      if address / 10000 = base / 10000
         ∧ address < base + length + (if reach = 0 then 1 else reach) then
        mergeRaw reach (base, address + count - base) rest
      else
        (base, length) :: mergeRaw reach (address, count) rest
    else
      mergeRaw reach (address, count) rest

/-- `merge(ranges, reach, limit)`: sort, coalesce ranges within `reach` of
each other inside one 10 000 band, and shatter each coalesced range.  On an
empty iterable the Python generator stops at the first `next()` and yields
nothing. -/
def merge (ranges : List (Nat × Nat)) (reach : Nat) (limit : Option Nat) :
    List (Nat × Nat) :=
  match sortRanges ranges with
  | [] => []
  | first :: rest =>
    (mergeRaw reach first rest).flatMap (fun p => shatter p.1 p.2 limit)

/-- Comparison of range start addresses. -/
def fstLE (p q : Nat × Nat) : Prop := p.1 ≤ q.1

/-- Comparison of range interval end points. -/
def endLE (p q : Nat × Nat) : Prop := p.1 + p.2 ≤ q.1 + q.2

/-- `endsMonoB l`: in the list order, interval end points `a + c` are
nondecreasing (so no range is strictly contained in the span of an earlier
one). -/
def endsMonoB : List (Nat × Nat) → Bool
  | p :: q :: rest => decide (p.1 + p.2 ≤ q.1 + q.2) && endsMonoB (q :: rest)
  | _ => true

/-- A range does not span a 10 000 address boundary: all addresses it
covers have the same quotient by 10 000. -/
def noSpan (p : Nat × Nat) : Prop :=
  p.2 = 0 ∨ (p.1 + p.2 - 1) / 10000 = p.1 / 10000

instance (p : Nat × Nat) : Decidable (noSpan p) :=
  inferInstanceAs (Decidable (p.2 = 0 ∨ (p.1 + p.2 - 1) / 10000 = p.1 / 10000))

/-! ## Definitions: the strict-timeout transport (`ModbusTcpClientTimeout`)

The wrapper keeps `_started` and `_timeout`, both set together by the
`timeout` setter and read by the `timeout` getter.  They are modelled as a
single `Option (ℚ × ℚ)` (the source always assigns both fields at once):
`none` is the default mode, `some (started, budget)` a hard deadline. -/

/-- Modelled from the spec: `Defaults.Timeout` is the pymodbus library's
module-level default per-I/O timeout ("typically ~3s"); the library is
external to this repository.  Only its value is fixed here, no theorem
depends on it. -/
def DefaultsTimeout : ℚ := 3

/-- The value assigned to the `timeout` property: `None`, `True`, or a
number of seconds. -/
inductive TimeoutArg where
  | null
  | tru
  | dur (d : ℚ)

/-- The `timeout` setter: `None` clears the deadline; `True` or `0` starts
a deadline of `Defaults.Timeout` from `now`; any other number starts a
deadline of that duration from `now`. -/
def setTimeout (now : ℚ) (arg : TimeoutArg) : Option (ℚ × ℚ) :=
  match arg with
  | .null => none
  | .tru => some (now, DefaultsTimeout)
  | .dur d => some (now, if d = 0 then DefaultsTimeout else d)

/-- The `timeout` getter: without a deadline it returns `Defaults.Timeout`;
with one it returns the remaining time `started + budget - now`, or `0`
once expired. -/
def getTimeout (deadline : Option (ℚ × ℚ)) (now : ℚ) : ℚ :=
  match deadline with
  | none => DefaultsTimeout
  | some (started, budget) =>
    if started + budget > now then started + budget - now else 0

/-! ## Definitions: the poller loop (`poller_modbus._poller`)

One iteration of the `while` loop (one poll cycle) abstracted over the
I/O outcomes: each merged range either succeeds (`_read` returns and the
range joins `succ`) or fails (`ModbusException` or other; the range joins
`fail`).  On the first success the loop takes the engine online; after the
loop, if the cache `_data` is non-empty, nothing succeeded and the engine
is online, it goes offline. -/

structure PollerState where
  online : Bool
  polling : List (Nat × Nat)
  failing : List (Nat × Nat)

/-- What one poll cycle encounters: whether `_data` is non-empty, and the
merged ranges polled with their success flag. -/
structure CycleInput where
  dataNonempty : Bool
  outcomes : List ((Nat × Nat) × Bool)

/-- The `succ` set of a cycle: ranges whose `_read` succeeded. -/
def succOf (ci : CycleInput) : List (Nat × Nat) :=
  (ci.outcomes.filter (fun o => o.2)).map Prod.fst

/-- The `fail` set of a cycle: ranges whose `_read` raised. -/
def failOf (ci : CycleInput) : List (Nat × Nat) :=
  (ci.outcomes.filter (fun o => !o.2)).map Prod.fst

/-- One completed poll cycle: successes set `online := True` as they occur;
afterwards `polling := succ`, `failing := fail`, and
`if self._data and not polling and self.online: self.online = False`. -/
def pollCycle (s : PollerState) (ci : CycleInput) : PollerState :=
  let succ := succOf ci
  let onlineLoop := s.online || !succ.isEmpty
  { online := if ci.dataNonempty && succ.isEmpty && onlineLoop then false else onlineLoop
    polling := succ
    failing := failOf ci }

/-- A sequence of completed poll cycles. -/
def runCycles (s : PollerState) : List CycleInput → PollerState
  | [] => s
  | ci :: rest => runCycles (pollCycle s ci) rest

/-- `_data` keys are never removed during the engine lifetime, so cache
non-emptiness is monotone along a run of cycles. -/
def dataMonoB : List CycleInput → Bool
  | c1 :: c2 :: rest => (!c1.dataNonempty || c2.dataNonempty) && dataMonoB (c2 :: rest)
  | _ => true

/-- Modelled from the spec: the initial `online` value comes from the base
class `cpppo.remote.plc.poller`, which is not among the sources here.  The
spec's invariant — `online` is false iff the cache is non-empty and the
most recent cycle had zero successes — forces `online = true` at startup,
when the cache is empty and no cycle has completed; `polling` and
`failing` start empty in `_poller` itself. -/
def initPollerState : PollerState :=
  { online := true, polling := [], failing := [] }

/-! ## Definitions: the write path (`poller_modbus._write`)

`_write` sets a transaction deadline, connects, classifies the address
into a writer request (Holding Registers at 400001..465536 and
40001..99999, Coils at 1..9999, in source order), executes it, and raises
on an `ExceptionResponse`.  It never touches the register cache `_data`. -/

/-- A value to write: a scalar, or a list/tuple (the `multi` hint). -/
inductive MValue where
  | scalar (v : Nat)
  | vec (vs : List Nat)
deriving DecidableEq

/-- `isinstance( value, (list,tuple) )`. -/
def MValue.isMulti : MValue → Bool
  | .scalar _ => false
  | .vec _ => true

/-- The pymodbus write request constructed by `_write`, with its 0-based
protocol offset and payload. -/
inductive WriteRequest where
  | singleCoil (offset : Nat) (value : MValue)
  | multipleCoils (offset : Nat) (value : MValue)
  | singleRegister (offset : Nat) (value : MValue)
  | multipleRegisters (offset : Nat) (value : MValue)
deriving DecidableEq

/-- Errors surfaced by the read and write paths. -/
inductive PlcError where
  | plcOffline
  | invalidAddress
  | modbusError
  | indexError
deriving DecidableEq

/-- The address→writer classification of `_write`, in source order; `none`
when the address is in no writable band (`writer` stays `None` and a
`ParameterException` is raised). -/
def writeClassify (address : Nat) (value : MValue) : Option WriteRequest :=
  if 400001 ≤ address ∧ address ≤ 465536 then
    some (if value.isMulti then .multipleRegisters (address - 400001) value
          else .singleRegister (address - 400001) value)
  else if 40001 ≤ address ∧ address ≤ 99999 then
    some (if value.isMulti then .multipleRegisters (address - 40001) value
          else .singleRegister (address - 40001) value)
  else if 1 ≤ address ∧ address ≤ 9999 then
    some (if value.isMulti then .multipleCoils (address - 1) value
          else .singleCoil (address - 1) value)
  else none

/-- The transport connection state: whether a socket exists, and the
deadline fields of the timeout wrapper. -/
structure ClientState where
  socket : Bool
  deadline : Option (ℚ × ℚ)

/-- The engine state visible to `_write`: the register cache `_data`
(address → most recent value) and the client. -/
structure EngineState where
  cache : List (Nat × Nat)
  client : ClientState

/-- How the device answers an executed request. -/
inductive WriteOutcome where
  | ok
  | exnResponse

/-- One call of `_write` as a state transformer.  `now` is the wall clock
at the call, `connectOk` whether a fresh TCP connection would succeed
(ignored when a socket already exists — `connect` returns `True` at once),
`resp` the device's answer.  Returns the new engine state, the request
issued on the wire (`none` when execution was never reached), and the
call's result. -/
def writeStep (s : EngineState) (now : ℚ) (connectOk : Bool) (resp : WriteOutcome)
    (address : Nat) (value : MValue) :
    EngineState × Option WriteRequest × Except PlcError Unit :=
  let deadlined : ClientState := { s.client with deadline := setTimeout now .tru }
  if s.client.socket = false ∧ connectOk = false then
    ({ s with client := deadlined }, none, .error .plcOffline)
  else
    let connected : ClientState := { deadlined with socket := true }
    match writeClassify address value with
    | none => ({ s with client := connected }, none, .error .invalidAddress)
    | some w =>
      match resp with
      | .exnResponse => ({ s with client := connected }, some w, .error .modbusError)
      | .ok => ({ s with client := connected }, some w, .ok ())

/-- Every conventional-address band of the data model. -/
def inSomeBand (address : Nat) : Prop :=
  (1 ≤ address ∧ address ≤ 9999) ∨ (10001 ≤ address ∧ address ≤ 19999)
  ∨ (30001 ≤ address ∧ address ≤ 39999) ∨ (40001 ≤ address ∧ address ≤ 99999)
  ∨ (100001 ≤ address ∧ address ≤ 165536) ∨ (300001 ≤ address ∧ address ≤ 365536)
  ∨ (400001 ≤ address ∧ address ≤ 465536)

instance (address : Nat) : Decidable (inSomeBand address) :=
  inferInstanceAs (Decidable ((1 ≤ address ∧ address ≤ 9999) ∨ _))

/-! ## Definitions: the read path (`poller_modbus._read`)

The classification ladder of `_read`, and the final shaping of the
response payload:
```
values = result.bits if hasattr( result, 'bits' ) else result.registers
return values if len( values ) > 1 else values[0]
```
-/

/-- The pymodbus read request constructed by `_read`. -/
inductive ReadRequest where
  | coils (offset count : Nat)
  | discreteInputs (offset count : Nat)
  | inputRegisters (offset count : Nat)
  | holdingRegisters (offset count : Nat)
deriving DecidableEq

/-- The address→reader classification of `_read`, in source order. -/
def readClassify (address count : Nat) : Option ReadRequest :=
  if 400001 ≤ address ∧ address ≤ 465536 then some (.holdingRegisters (address - 400001) count)
  else if 300001 ≤ address ∧ address ≤ 365536 then some (.inputRegisters (address - 300001) count)
  else if 100001 ≤ address ∧ address ≤ 165536 then some (.discreteInputs (address - 100001) count)
  else if 40001 ≤ address ∧ address ≤ 99999 then some (.holdingRegisters (address - 40001) count)
  else if 30001 ≤ address ∧ address ≤ 39999 then some (.inputRegisters (address - 30001) count)
  else if 10001 ≤ address ∧ address ≤ 19999 then some (.discreteInputs (address - 10001) count)
  else if 1 ≤ address ∧ address ≤ 9999 then some (.coils (address - 1) count)
  else none

/-- The value `_read` returns: a single bit/register, or a list of them. -/
inductive ReadValue (α : Type) where
  | scalar (v : α)
  | vec (vs : List α)
deriving DecidableEq

/-- The device's answer to an executed read: an exception response, or a
payload (`result.bits` or `result.registers`). -/
inductive ReadResp (α : Type) where
  | exn
  | values (vs : List α)

/-- `return values if len( values ) > 1 else values[0]`: a list when more
than one element, the sole element when exactly one, and an `IndexError`
(`values[0]` on an empty sequence) when zero. -/
def readExtract {α : Type} (values : List α) : Except PlcError (ReadValue α) :=
  if 1 < values.length then .ok (.vec values)
  else
    match values with
    | [] => .error .indexError
    | v :: _ => .ok (.scalar v)

/-- One call of `_read`: deadline, connect, classify, execute, shape. -/
def readStep {α : Type} (connectOk : Bool) (address count : Nat) (resp : ReadResp α) :
    Except PlcError (ReadValue α) :=
  if connectOk = false then .error .plcOffline
  else
    match readClassify address count with
    | none => .error .invalidAddress
    | some _ =>
      match resp with
      | .exn => .error .modbusError
      | .values vs => readExtract vs

/-! ## Theorems: `shatter` -/

theorem deducedLimit_pos (address : Nat) : 1 ≤ deducedLimit address := by
  unfold deducedLimit; split <;> omega

theorem effLimit_pos (address : Nat) (limit : Option Nat) : 1 ≤ effLimit address limit := by
  rcases limit with _ | n
  · exact deducedLimit_pos address
  · by_cases hn : n = 0
    · simpa [effLimit, hn] using deducedLimit_pos address
    · simp [effLimit, hn]; omega

theorem shatterGo_count_zero (limit fuel address : Nat) : shatterGo limit fuel address 0 = [] := by
  cases fuel <;> simp [shatterGo]

theorem shatterGo_step (limit fuel address count : Nat) (hc : count ≠ 0) (hl : limit ≠ 0) :
    shatterGo limit (fuel + 1) address count =
      (address, min count limit) ::
        shatterGo limit fuel (address + min count limit) (count - min count limit) := by
  simp [shatterGo, hc, hl]

/-- Every range emitted by `shatterGo` has length between 1 and `limit`. -/
theorem shatterGo_len_bounds (limit : Nat) (hl : 1 ≤ limit) :
    ∀ fuel count address, ∀ p ∈ shatterGo limit fuel address count, 1 ≤ p.2 ∧ p.2 ≤ limit := by
  intro fuel
  induction fuel with
  | zero => intro count address p hp; cases hp
  | succ fuel ih =>
    intro count address p hp
    by_cases hc : count = 0
    · subst hc; rw [shatterGo_count_zero] at hp; cases hp
    · rw [shatterGo_step limit fuel address count hc (by omega)] at hp
      rcases List.mem_cons.mp hp with h | h
      · subst h; constructor <;> simp <;> omega
      · exact ih _ _ p h

theorem shatterGo_tiles (limit : Nat) (hl : 1 ≤ limit) :
    ∀ fuel count address, count ≤ fuel → tiles address count (shatterGo limit fuel address count) := by
  intro fuel
  induction fuel with
  | zero =>
    intro count address hcf
    have : count = 0 := by omega
    subst this; simp [shatterGo, tiles]
  | succ fuel ih =>
    intro count address hcf
    by_cases hc : count = 0
    · subst hc; rw [shatterGo_count_zero]; trivial
    · rw [shatterGo_step limit fuel address count hc (by omega)]
      refine ⟨rfl, by omega, by omega, ?_⟩
      exact ih (count - min count limit) _ (by omega)

theorem tiles_sum : ∀ (a c : Nat) (l : List (Nat × Nat)), tiles a c l →
    (l.map Prod.snd).sum = c := by
  intro a c l
  induction l generalizing a c with
  | nil => intro h; simpa [tiles] using h.symm
  | cons p rest ih =>
    rintro ⟨_, h1, h2, h3⟩
    have := ih (a + p.2) (c - p.2) h3
    simp only [List.map_cons, List.sum_cons]
    omega

theorem tiles_chain : ∀ (a c : Nat) (l : List (Nat × Nat)), tiles a c l →
    List.Chain' (fun p q => q.1 = p.1 + p.2) l := by
  intro a c l
  induction l generalizing a c with
  | nil => intro _; exact List.chain'_nil
  | cons p rest ih =>
    rintro ⟨ha, h1, h2, h3⟩
    rcases rest with _ | ⟨q, rest'⟩
    · simp
    · refine List.chain'_cons.mpr ⟨?_, ih _ _ h3⟩
      obtain ⟨hq, _, _, _⟩ := h3
      omega

theorem tiles_head : ∀ (a c : Nat) (p : Nat × Nat) (l : List (Nat × Nat)),
    tiles a c (p :: l) → p.1 = a := by
  rintro a c p l ⟨h, _⟩; exact h

theorem tiles_nonempty : ∀ (a c : Nat) (l : List (Nat × Nat)), tiles a c l → 1 ≤ c →
    l ≠ [] := by
  rintro a c (_ | ⟨p, l⟩) h hc
  · simp [tiles] at h; omega
  · simp

theorem tiles_covers : ∀ (a c : Nat) (l : List (Nat × Nat)), tiles a c l →
    ∀ x, covers l x ↔ (a ≤ x ∧ x < a + c) := by
  intro a c l
  induction l generalizing a c with
  | nil =>
    intro h x
    simp only [tiles] at h
    simp [covers, h]
  | cons p rest ih =>
    rintro ⟨ha, h1, h2, h3⟩ x
    have hrest := ih (a + p.2) (c - p.2) h3 x
    simp only [covers, List.mem_cons] at *
    constructor
    · rintro ⟨q, hq | hq, hle, hlt⟩
      · subst hq; omega
      · have := hrest.mp ⟨q, hq, hle, hlt⟩; omega
    · intro hx
      by_cases hin : x < a + p.2
      · exact ⟨p, Or.inl rfl, by omega, by omega⟩
      · obtain ⟨q, hq, hb⟩ := hrest.mpr (by omega)
        exact ⟨q, Or.inr hq, hb⟩

theorem tiles_mem_sub : ∀ (a c : Nat) (l : List (Nat × Nat)), tiles a c l →
    ∀ p ∈ l, a ≤ p.1 ∧ p.1 + p.2 ≤ a + c := by
  intro a c l
  induction l generalizing a c with
  | nil => intro _ p hp; cases hp
  | cons q rest ih =>
    rintro ⟨ha, h1, h2, h3⟩ p hp
    rcases List.mem_cons.mp hp with h | h
    · subst h; omega
    · have := ih (a + q.2) (c - q.2) h3 p h; omega

/-- `shatter` tiles exactly the requested interval. -/
theorem shatter_tiles (address count : Nat) (limit : Option Nat) :
    tiles address count (shatter address count limit) :=
  shatterGo_tiles _ (effLimit_pos address limit) count count address (le_refl _)

/-- The coverage of `shatter` is exactly the requested interval. -/
theorem shatter_covers (address count : Nat) (limit : Option Nat) :
    ∀ x, covers (shatter address count limit) x ↔ (address ≤ x ∧ x < address + count) :=
  tiles_covers _ _ _ (shatter_tiles address count limit)

/-- Length of the `shatterGo` output: at most the number of limit-sized bites. -/
theorem shatterGo_length (limit : Nat) (hl : 1 ≤ limit) :
    ∀ fuel count address, count ≤ fuel →
      (shatterGo limit fuel address count).length ≤ (count + limit - 1) / limit := by
  intro fuel
  induction fuel with
  | zero =>
    intro count address hcf
    have : count = 0 := by omega
    subst this; simp [shatterGo]
  | succ fuel ih =>
    intro count address hcf
    by_cases hc : count = 0
    · subst hc; rw [shatterGo_count_zero]; simp
    · rw [shatterGo_step limit fuel address count hc (by omega)]
      simp only [List.length_cons]
      by_cases hcl : count ≤ limit
      · have : min count limit = count := by omega
        rw [this]
        simp only [Nat.sub_self, shatterGo_count_zero, List.length_nil]
        have : 1 * limit ≤ count + limit - 1 := by omega
        have := (Nat.le_div_iff_mul_le (by omega)).mpr this
        omega
      · have hmin : min count limit = limit := by omega
        rw [hmin]
        have hIH := ih (count - limit) (address + limit) (by omega)
        have heq : count + limit - 1 = (count - limit + limit - 1) + limit := by omega
        rw [heq, Nat.add_div_right _ (by omega)]
        omega

/-- C4: with `limit` absent, `shatter` applies limit 1968 on the coil/status
bit bands (1..9999, 10001..19999, 100001..165536) and 123 elsewhere; in
particular `shatter(1, 4000, None)` yields exactly (1,1968), (1969,1968),
(3937,64) and `shatter(40001, 300, None)` yields exactly (40001,123),
(40124,123), (40247,54), in order. -/
theorem claim_C4_default_limits :
    (∀ address : Nat,
      (((1 ≤ address ∧ address ≤ 9999) ∨ (10001 ≤ address ∧ address ≤ 19999)
          ∨ (100001 ≤ address ∧ address ≤ 165536)) →
        effLimit address none = 1968)
      ∧ (¬ ((1 ≤ address ∧ address ≤ 9999) ∨ (10001 ≤ address ∧ address ≤ 19999)
          ∨ (100001 ≤ address ∧ address ≤ 165536)) →
        effLimit address none = 123))
    ∧ shatter 1 4000 none = [(1, 1968), (1969, 1968), (3937, 64)]
    ∧ shatter 40001 300 none = [(40001, 123), (40124, 123), (40247, 54)] := by
  refine ⟨fun address => ⟨fun h => ?_, fun h => ?_⟩, by decide, by decide⟩
  · show deducedLimit address = 1968
    unfold deducedLimit; rw [if_pos h]
  · show deducedLimit address = 123
    unfold deducedLimit; rw [if_neg h]

/-- Witness for C4: instantiating its band implications at addresses 15000
and 40001. -/
theorem claim_C4_default_limits_w :
    effLimit 15000 none = 1968 ∧ effLimit 40001 none = 123 :=
  ⟨(claim_C4_default_limits.1 15000).1 (by decide),
   (claim_C4_default_limits.1 40001).2 (by decide)⟩

/-- C5: for `count ≥ 1` and positive `limit`, `shatter address count limit`
exactly tiles `[address, address+count)`: the first sub-range starts at
`address`, each subsequent sub-range starts where the previous one ends,
the lengths sum to `count`, and every length is at most `limit`. -/
theorem claim_C5_shatter_tiling (address count l : Nat) (hc : 1 ≤ count) (hl : 1 ≤ l) :
    (∃ t, (shatter address count (some l)).head? = some (address, t))
    ∧ List.Chain' (fun p q => q.1 = p.1 + p.2) (shatter address count (some l))
    ∧ ((shatter address count (some l)).map Prod.snd).sum = count
    ∧ ∀ p ∈ shatter address count (some l), 1 ≤ p.2 ∧ p.2 ≤ l := by
  have ht := shatter_tiles address count (some l)
  have hel : effLimit address (some l) = l := by
    simp [effLimit]; omega
  refine ⟨?_, tiles_chain _ _ _ ht, tiles_sum _ _ _ ht, ?_⟩
  · have hne := tiles_nonempty _ _ _ ht hc
    rcases hout : shatter address count (some l) with _ | ⟨p, rest⟩
    · exact absurd hout hne
    · rw [hout] at ht
      have := tiles_head _ _ _ _ ht
      exact ⟨p.2, by simp [← this]⟩
  · intro p hp
    have := shatterGo_len_bounds (effLimit address (some l))
      (effLimit_pos address (some l)) count count address p hp
    omega

/-- Witness for C5 at `shatter 40001 300 (some 123)`. -/
theorem claim_C5_shatter_tiling_w :
    (∃ t, (shatter 40001 300 (some 123)).head? = some (40001, t))
    ∧ List.Chain' (fun p q => q.1 = p.1 + p.2) (shatter 40001 300 (some 123))
    ∧ ((shatter 40001 300 (some 123)).map Prod.snd).sum = 300
    ∧ ∀ p ∈ shatter 40001 300 (some 123), 1 ≤ p.2 ∧ p.2 ≤ 123 :=
  claim_C5_shatter_tiling 40001 300 123 (by decide) (by decide)

/-- C10: for every address, every count and every limit that is `None` or a
positive integer, `shatter` terminates with at most
`ceil(count / effective-limit)` ranges (`(count + L - 1) / L` in `Nat`
division), the effective limit being positive. -/
theorem claim_C10_shatter_bounded (address count : Nat) (limit : Option Nat)
    (hl : limit = none ∨ ∃ n, limit = some n ∧ 1 ≤ n) :
    1 ≤ effLimit address limit
    ∧ (shatter address count limit).length
        ≤ (count + effLimit address limit - 1) / effLimit address limit :=
  ⟨effLimit_pos address limit,
   shatterGo_length (effLimit address limit) (effLimit_pos address limit)
     count count address (le_refl _)⟩

/-- Witness for C10 at `shatter 1 4000 none`. -/
theorem claim_C10_shatter_bounded_w :
    1 ≤ effLimit 1 none
    ∧ (shatter 1 4000 none).length ≤ (4000 + effLimit 1 none - 1) / effLimit 1 none :=
  claim_C10_shatter_bounded 1 4000 none (Or.inl rfl)

/-! ## Theorems: `merge` -/

theorem covers_cons (p : Nat × Nat) (l : List (Nat × Nat)) (x : Nat) :
    covers (p :: l) x ↔ (p.1 ≤ x ∧ x < p.1 + p.2) ∨ covers l x := by
  simp only [covers, List.mem_cons]
  constructor
  · rintro ⟨q, hq | hq, hb⟩
    · subst hq; exact Or.inl hb
    · exact Or.inr ⟨q, hq, hb⟩
  · rintro (hb | ⟨q, hq, hb⟩)
    · exact ⟨p, Or.inl rfl, hb⟩
    · exact ⟨q, Or.inr hq, hb⟩

theorem covers_perm {l l' : List (Nat × Nat)} (h : l.Perm l') (x : Nat) :
    covers l x ↔ covers l' x := by
  unfold covers
  constructor <;> rintro ⟨p, hp, hb⟩
  · exact ⟨p, h.mem_iff.mp hp, hb⟩
  · exact ⟨p, h.mem_iff.mpr hp, hb⟩

theorem sortRanges_perm (l : List (Nat × Nat)) : (sortRanges l).Perm l :=
  List.perm_insertionSort rangeLE l

theorem sortRanges_pairwise_fst (l : List (Nat × Nat)) :
    (sortRanges l).Pairwise fstLE := by
  have h := List.sorted_insertionSort rangeLE l
  exact h.imp (fun hpq => by unfold rangeLE at hpq; unfold fstLE; omega)

theorem endsMonoB_chain : ∀ l : List (Nat × Nat), endsMonoB l = true → List.Chain' endLE l := by
  intro l
  match l with
  | [] => intro _; exact List.chain'_nil
  | [p] => intro _; simp
  | p :: q :: rest =>
    intro h
    simp only [endsMonoB, Bool.and_eq_true, decide_eq_true_eq] at h
    exact List.chain'_cons.mpr ⟨h.1, endsMonoB_chain (q :: rest) h.2⟩

/-- The coverage of the raw merge loop is a superset of the coverage of its
input, provided starts are sorted and interval end points are
nondecreasing. -/
theorem mergeRaw_covers (reach : Nat) :
    ∀ (rest : List (Nat × Nat)) (base length : Nat),
      List.Pairwise fstLE ((base, length) :: rest) →
      List.Chain' endLE ((base, length) :: rest) →
      ∀ x, covers ((base, length) :: rest) x →
        covers (mergeRaw reach (base, length) rest) x := by
  intro rest
  induction rest with
  | nil => intro base length _ _ x hx; exact hx
  | cons hd tl ih =>
    intro base length hpw hch x hx
    obtain ⟨a, c⟩ := hd
    have hba : base ≤ a := by
      have := List.rel_of_pairwise_cons hpw (List.mem_cons_self _ _)
      exact this
    have hpw_tl : List.Pairwise fstLE ((a, c) :: tl) := hpw.of_cons
    have hch_tl : List.Chain' endLE ((a, c) :: tl) := hch.tail
    have hend : base + length ≤ a + c := by
      have := List.chain'_cons.mp hch
      exact this.1
    rw [covers_cons] at hx
    by_cases hlen : length = 0
    · simp only [mergeRaw, hlen, ne_eq, not_true_eq_false, if_false, reduceIte]
      apply ih a c hpw_tl hch_tl x
      rcases hx with hb | hx
      · simp at hb; omega
      · exact hx
    · by_cases hcond : a / 10000 = base / 10000
          ∧ a < base + length + (if reach = 0 then 1 else reach)
      · have hstep : mergeRaw reach (base, length) ((a, c) :: tl) =
            mergeRaw reach (base, a + c - base) tl := by
          simp [mergeRaw, hlen, hcond]
        rw [hstep]
        have hpw' : List.Pairwise fstLE ((base, a + c - base) :: tl) := by
          constructor
          · intro q hq
            have : fstLE (base, length) q :=
              List.rel_of_pairwise_cons hpw (List.mem_cons_of_mem _ hq)
            exact this
          · exact hpw_tl.of_cons
        have hch' : List.Chain' endLE ((base, a + c - base) :: tl) := by
          rcases tl with _ | ⟨q, tl'⟩
          · simp
          · refine List.chain'_cons.mpr ⟨?_, hch_tl.tail⟩
            have : endLE (a, c) q := (List.chain'_cons.mp hch_tl).1
            unfold endLE at *
            omega
        apply ih base (a + c - base) hpw' hch' x
        rw [covers_cons]
        rcases hx with hb | hx
        · left; simp only at hb ⊢; omega
        · rw [covers_cons] at hx
          rcases hx with hb | hx
          · left; simp only at hb ⊢; omega
          · right; exact hx
      · have hstep : mergeRaw reach (base, length) ((a, c) :: tl) =
            (base, length) :: mergeRaw reach (a, c) tl := by
          simp [mergeRaw, hlen, hcond]
        rw [hstep, covers_cons]
        rcases hx with hb | hx
        · exact Or.inl hb
        · exact Or.inr (ih a c hpw_tl hch_tl x hx)

/-- The raw merge loop never emits a range spanning a 10 000 boundary when
its input ranges do not. -/
theorem mergeRaw_noSpan (reach : Nat) :
    ∀ (rest : List (Nat × Nat)) (base length : Nat),
      List.Pairwise fstLE ((base, length) :: rest) →
      noSpan (base, length) → (∀ q ∈ rest, noSpan q) →
      ∀ p ∈ mergeRaw reach (base, length) rest, noSpan p := by
  intro rest
  induction rest with
  | nil =>
    intro base length _ hns _ p hp
    simp only [mergeRaw, List.mem_singleton] at hp
    subst hp; exact hns
  | cons hd tl ih =>
    intro base length hpw hns hall p hp
    obtain ⟨a, c⟩ := hd
    have hba : base ≤ a :=
      List.rel_of_pairwise_cons hpw (List.mem_cons_self _ _)
    have hpw_tl : List.Pairwise fstLE ((a, c) :: tl) := hpw.of_cons
    have hns_ac : noSpan (a, c) := hall _ (List.mem_cons_self _ _)
    have hall_tl : ∀ q ∈ tl, noSpan q := fun q hq => hall q (List.mem_cons_of_mem _ hq)
    by_cases hlen : length = 0
    · simp only [mergeRaw, hlen, ne_eq, not_true_eq_false, if_false, reduceIte] at hp
      exact ih a c hpw_tl hns_ac hall_tl p hp
    · by_cases hcond : a / 10000 = base / 10000
          ∧ a < base + length + (if reach = 0 then 1 else reach)
      · rw [show mergeRaw reach (base, length) ((a, c) :: tl) =
            mergeRaw reach (base, a + c - base) tl by simp [mergeRaw, hlen, hcond]] at hp
        have hpw' : List.Pairwise fstLE ((base, a + c - base) :: tl) := by
          constructor
          · intro q hq
            exact List.rel_of_pairwise_cons hpw (List.mem_cons_of_mem _ hq)
          · exact hpw_tl.of_cons
        have hns' : noSpan (base, a + c - base) := by
          unfold noSpan at *
          simp only at *
          obtain ⟨hband, _⟩ := hcond
          omega
        exact ih base (a + c - base) hpw' hns' hall_tl p hp
      · rw [show mergeRaw reach (base, length) ((a, c) :: tl) =
            (base, length) :: mergeRaw reach (a, c) tl by simp [mergeRaw, hlen, hcond]] at hp
        rcases List.mem_cons.mp hp with h | h
        · subst h; exact hns
        · exact ih a c hpw_tl hns_ac hall_tl p h

/-- Shattering a range that does not span a 10 000 boundary produces only
ranges that do not span one. -/
theorem shatter_noSpan (b len : Nat) (limit : Option Nat) (h : noSpan (b, len)) :
    ∀ p ∈ shatter b len limit, noSpan p := by
  intro p hp
  have hsub := tiles_mem_sub _ _ _ (shatter_tiles b len limit) p hp
  have hlen := shatterGo_len_bounds (effLimit b limit) (effLimit_pos b limit) len len b p hp
  unfold noSpan at *
  simp only at *
  rcases h with h | h
  · subst h
    rw [show shatter b 0 limit = [] from by simp [shatter, shatterGo]] at hp
    cases hp
  · omega

/-- Coverage is invariant under shattering each range of a list. -/
theorem covers_flatMap_shatter (l : List (Nat × Nat)) (limit : Option Nat) (x : Nat) :
    covers (l.flatMap (fun p => shatter p.1 p.2 limit)) x ↔ covers l x := by
  unfold covers
  constructor
  · rintro ⟨q, hq, hb⟩
    obtain ⟨p, hp, hq'⟩ := List.mem_flatMap.mp hq
    refine ⟨p, hp, ?_⟩
    have := (shatter_covers p.1 p.2 limit x).mp ⟨q, hq', hb⟩
    exact this
  · rintro ⟨p, hp, hb⟩
    obtain ⟨q, hq, hb'⟩ := (shatter_covers p.1 p.2 limit x).mpr hb
    exact ⟨q, List.mem_flatMap.mpr ⟨p, hp, hq⟩, hb'⟩

/-- C1 (amended): for every input list S, every reach and every limit:
(a) when no input range spans a 10 000 address boundary, no output range of
`merge S reach limit` spans one; and (b) provided the interval end points
are nondecreasing in the sorted order of S — the proviso forced by the
shrinking counterexample — the union of addresses covered by the output is
a superset of the union covered by S. -/
theorem claim_C1_merge_coverage (S : List (Nat × Nat)) (reach : Nat) (limit : Option Nat) :
    ((∀ p ∈ S, noSpan p) → ∀ p ∈ merge S reach limit, noSpan p)
    ∧ (endsMonoB (sortRanges S) = true →
        ∀ x, covers S x → covers (merge S reach limit) x) := by
  rcases hs : sortRanges S with _ | ⟨first, rest⟩
  · have hSnil : S = [] := by
      have := sortRanges_perm S
      rw [hs] at this
      exact this.symm.eq_nil
    subst hSnil
    constructor
    · intro _ p hp
      simp [merge, hs] at hp
    · intro _ x hx
      simp [covers] at hx
  · have hperm : (first :: rest).Perm S := by
      have := sortRanges_perm S
      rwa [hs] at this
    have hpw : List.Pairwise fstLE (first :: rest) := by
      have := sortRanges_pairwise_fst S
      rwa [hs] at this
    have hmerge : merge S reach limit =
        (mergeRaw reach first rest).flatMap (fun p => shatter p.1 p.2 limit) := by
      unfold merge
      rw [hs]
    constructor
    · intro hns p hp
      rw [hmerge] at hp
      obtain ⟨q, hq, hp'⟩ := List.mem_flatMap.mp hp
      have hq_ns : noSpan q := by
        obtain ⟨b, len⟩ := first
        refine mergeRaw_noSpan reach rest b len hpw ?_ ?_ q hq
        · exact hns _ (hperm.mem_iff.mp (List.mem_cons_self _ _))
        · intro r hr
          exact hns _ (hperm.mem_iff.mp (List.mem_cons_of_mem _ hr))
      obtain ⟨qb, qlen⟩ := q
      exact shatter_noSpan qb qlen limit hq_ns p hp'
    · intro hmono x hx
      rw [hmerge, covers_flatMap_shatter]
      have hch : List.Chain' endLE (first :: rest) := endsMonoB_chain _ hmono
      obtain ⟨b, len⟩ := first
      refine mergeRaw_covers reach rest b len hpw hch x ?_
      exact (covers_perm hperm x).mpr hx

/-- Counterexample to C1 as stated: with input ranges (40001,100) and
(40010,1), reach 1 and limit 123, the address 40050 is covered by the
input but not by the output of `merge` — the loop shrinks the accumulated
range to (40001,10). -/
theorem claim_C1_merge_coverage_cx :
    covers [(40001, 100), (40010, 1)] 40050
    ∧ ¬ covers (merge [(40001, 100), (40010, 1)] 1 (some 123)) 40050 := by decide

/-- Witness for the amended C1 at S = [(40001,1),(40005,1),(40010,1)],
reach 5, limit 123. -/
theorem claim_C1_merge_coverage_w :
    (∀ p ∈ merge [(40001, 1), (40005, 1), (40010, 1)] 5 (some 123), noSpan p)
    ∧ covers (merge [(40001, 1), (40005, 1), (40010, 1)] 5 (some 123)) 40005 :=
  ⟨(claim_C1_merge_coverage [(40001, 1), (40005, 1), (40010, 1)] 5 (some 123)).1
      (by decide),
   (claim_C1_merge_coverage [(40001, 1), (40005, 1), (40010, 1)] 5 (some 123)).2
      (by decide) 40005 (by decide)⟩

/-- C2 (amended): for two sorted input ranges A = (a, la), B = (b, lb) with
la ≥ 1, `merge` combines them into the single raw range (a, b+lb−a) iff
`b < a + la + max(reach, 1)` and a and b lie in the same 10 000 band —
Python's `( reach or 1 )` makes a zero reach behave as 1; otherwise both
are emitted separately.  Each emitted raw range passes through `shatter`. -/
theorem claim_C2_merge_pair (a la b lb reach : Nat) (limit : Option Nat)
    (hord : a < b ∨ (a = b ∧ la ≤ lb)) (hla : 1 ≤ la) :
    merge [(a, la), (b, lb)] reach limit =
      if b / 10000 = a / 10000 ∧ b < a + la + max reach 1
      then shatter a (b + lb - a) limit
      else shatter a la limit ++ shatter b lb limit := by
  have hr : rangeLE (a, la) (b, lb) := by unfold rangeLE; simp only; omega
  have hsort : sortRanges [(a, la), (b, lb)] = [(a, la), (b, lb)] := by
    simp [sortRanges, List.insertionSort, List.orderedInsert, hr]
  have hmax : (if reach = 0 then 1 else reach) = max reach 1 := by
    rcases reach with _ | r <;> simp
  have hmerge : merge [(a, la), (b, lb)] reach limit =
      (mergeRaw reach (a, la) [(b, lb)]).flatMap (fun p => shatter p.1 p.2 limit) := by
    unfold merge
    rw [hsort]
  rw [hmerge]
  by_cases hcond : b / 10000 = a / 10000 ∧ b < a + la + max reach 1
  · have hla' : la ≠ 0 := by omega
    have : mergeRaw reach (a, la) [(b, lb)] = [(a, b + lb - a)] := by
      simp [mergeRaw, hmax, hcond, hla']
    rw [this, if_pos hcond]
    simp
  · have : mergeRaw reach (a, la) [(b, lb)] = [(a, la), (b, lb)] := by
      rw [← hmax] at hcond
      simp [mergeRaw, hcond]
      omega
    rw [this, if_neg hcond]
    simp

/-- Counterexample to C2 as stated: at reach = 0 the claim's condition
`b < a + la + reach` fails for A = (40001,1), B = (40002,1), yet the code
merges them into (40001,2), because `( reach or 1 )` turns reach 0 into 1. -/
theorem claim_C2_merge_pair_cx :
    merge [(40001, 1), (40002, 1)] 0 none = [(40001, 2)]
    ∧ ¬ (40002 < 40001 + 1 + 0) := by decide

/-- Witness for the amended C2 at A = (40001,1), B = (40002,1), reach 0. -/
theorem claim_C2_merge_pair_w :
    merge [(40001, 1), (40002, 1)] 0 none =
      if 40002 / 10000 = 40001 / 10000 ∧ 40002 < 40001 + 1 + max 0 1
      then shatter 40001 (40002 + 1 - 40001) none
      else shatter 40001 1 none ++ shatter 40002 1 none :=
  claim_C2_merge_pair 40001 1 40002 1 0 none (Or.inl (by decide)) (by decide)

/-! ## Theorems: the transport deadline -/

/-- C7: beginning a transaction by assigning a positive duration `d` at
time `t0` makes every later read of the `timeout` property return
`max 0 (t0 + d - now)`; with the deadline never set, or set to `None`,
every read returns `Defaults.Timeout`. -/
theorem claim_C7_transaction_deadline (t0 d now : ℚ) (hd : 0 < d) :
    getTimeout (setTimeout t0 (.dur d)) now = max 0 (t0 + d - now)
    ∧ (∀ t : ℚ, getTimeout none t = DefaultsTimeout)
    ∧ (∀ t t' : ℚ, getTimeout (setTimeout t' .null) t = DefaultsTimeout) := by
  refine ⟨?_, fun t => rfl, fun t t' => rfl⟩
  have hd' : d ≠ 0 := ne_of_gt hd
  show getTimeout (some (t0, if d = 0 then DefaultsTimeout else d)) now = _
  rw [if_neg hd']
  show (if t0 + d > now then t0 + d - now else 0) = _
  rcases le_or_lt (t0 + d) now with h | h
  · rw [if_neg (by linarith), max_eq_left (by linarith)]
  · rw [if_pos h, max_eq_right (by linarith)]

/-- Witness for C7: deadline of 5 begun at time 0, read at time 2. -/
theorem claim_C7_transaction_deadline_w :
    getTimeout (setTimeout 0 (.dur 5)) 2 = max 0 (0 + 5 - 2)
    ∧ (∀ t : ℚ, getTimeout none t = DefaultsTimeout)
    ∧ (∀ t t' : ℚ, getTimeout (setTimeout t' .null) t = DefaultsTimeout) :=
  claim_C7_transaction_deadline 0 5 2 (by norm_num)

/-! ## Theorems: the poller's online flag -/

/-- After one completed cycle whose entry state satisfies the invariant
(offline only with a non-empty cache), the flag is false iff the cache is
non-empty and the cycle's `succ` set is empty. -/
theorem pollCycle_online_false_iff (s : PollerState) (ci : CycleInput)
    (hinv : s.online = false → ci.dataNonempty = true) :
    ((pollCycle s ci).online = false ↔ (ci.dataNonempty = true ∧ succOf ci = [])) := by
  unfold pollCycle
  simp only
  rcases hsucc : (succOf ci).isEmpty with _ | _
  · have hne : ¬ (succOf ci = []) := by
      intro h
      rw [h] at hsucc
      simp at hsucc
    simp [hne]
  · have he : succOf ci = [] := List.isEmpty_iff.mp hsucc
    rcases hso : s.online with _ | _
    · have hd := hinv hso
      simp [he, hd]
    · simp [he]

theorem dataMonoB_cons (c1 x : CycleInput) (l : List CycleInput) :
    dataMonoB (c1 :: x :: l) =
      ((!c1.dataNonempty || x.dataNonempty) && dataMonoB (x :: l)) := rfl

theorem dataMonoB_tail (c1 : CycleInput) (l : List CycleInput)
    (h : dataMonoB (c1 :: l) = true) : dataMonoB l = true := by
  rcases l with _ | ⟨x, l'⟩
  · rfl
  · rw [dataMonoB_cons, Bool.and_eq_true] at h
    exact h.2

theorem dataMonoB_head (c1 x : CycleInput) (l : List CycleInput)
    (h : dataMonoB (c1 :: x :: l) = true) (hc1 : c1.dataNonempty = true) :
    x.dataNonempty = true := by
  rw [dataMonoB_cons, Bool.and_eq_true] at h
  have h1 := h.1
  rw [hc1] at h1
  simpa using h1

/-- The invariant-carrying induction along a run of cycles ending in `c`. -/
theorem runCycles_last (cs : List CycleInput) :
    ∀ (s : PollerState) (c : CycleInput),
      dataMonoB (cs ++ [c]) = true →
      (s.online = false → (cs.headD c).dataNonempty = true) →
      ((runCycles s (cs ++ [c])).online = false ↔
        (c.dataNonempty = true ∧ succOf c = [])) := by
  induction cs with
  | nil =>
    intro s c _ hinv
    exact pollCycle_online_false_iff s c (by simpa using hinv)
  | cons c1 rest ih =>
    intro s c hm hinv
    have hstep : runCycles s ((c1 :: rest) ++ [c]) = runCycles (pollCycle s c1) (rest ++ [c]) := rfl
    rw [hstep]
    have hinv1 : s.online = false → c1.dataNonempty = true := by simpa using hinv
    have hoff1 : (pollCycle s c1).online = false → c1.dataNonempty = true :=
      fun hoff => ((pollCycle_online_false_iff s c1 hinv1).mp hoff).1
    rcases rest with _ | ⟨y, rest'⟩
    · refine ih (pollCycle s c1) c rfl ?_
      intro hoff
      exact dataMonoB_head c1 c [] hm (hoff1 hoff)
    · refine ih (pollCycle s c1) c (dataMonoB_tail c1 _ hm) ?_
      intro hoff
      exact dataMonoB_head c1 y (rest' ++ [c]) hm (hoff1 hoff)

/-- C3: starting from engine startup (online, empty cache), after every
completed poll cycle the `online` flag is false iff the register cache is
non-empty and that most recent cycle's `succ` set is empty — the cache
only ever grows (`dataMonoB`). -/
theorem claim_C3_offline_iff (cs : List CycleInput) (c : CycleInput)
    (hmono : dataMonoB (cs ++ [c]) = true) :
    ((runCycles initPollerState (cs ++ [c])).online = false ↔
      (c.dataNonempty = true ∧ succOf c = [])) :=
  runCycles_last cs initPollerState c hmono
    (fun h => absurd h (by simp [initPollerState]))

/-- Witness for C3: one cycle with a non-empty cache in which the only
range fails. -/
theorem claim_C3_offline_iff_w :
    ((runCycles initPollerState ([] ++ [⟨true, [((40001, 1), false)]⟩])).online = false ↔
      ((⟨true, [((40001, 1), false)]⟩ : CycleInput).dataNonempty = true
        ∧ succOf ⟨true, [((40001, 1), false)]⟩ = [])) :=
  claim_C3_offline_iff [] ⟨true, [((40001, 1), false)]⟩ (by decide)

/-! ## Theorems: the write path -/

/-- C6: with a connected client, a write to a holding-register band issues
WriteSingleRegister for a scalar and WriteMultipleRegisters for a list, at
the 0-based offset (address minus the band base, 40001 or 400001); a write
to any status or input band, or to an address in no band at all, returns
the invalid-address error without issuing any request. -/
theorem claim_C6_write_classification (s : EngineState) (now : ℚ) (connectOk : Bool)
    (resp : WriteOutcome) (address : Nat) (value : MValue)
    (hconn : s.client.socket = true) :
    ((40001 ≤ address ∧ address ≤ 99999) →
      (writeStep s now connectOk resp address value).2.1 =
        some (if value.isMulti then WriteRequest.multipleRegisters (address - 40001) value
              else WriteRequest.singleRegister (address - 40001) value))
    ∧ ((400001 ≤ address ∧ address ≤ 465536) →
      (writeStep s now connectOk resp address value).2.1 =
        some (if value.isMulti then WriteRequest.multipleRegisters (address - 400001) value
              else WriteRequest.singleRegister (address - 400001) value))
    ∧ (((10001 ≤ address ∧ address ≤ 19999) ∨ (30001 ≤ address ∧ address ≤ 39999)
        ∨ (100001 ≤ address ∧ address ≤ 165536) ∨ (300001 ≤ address ∧ address ≤ 365536)
        ∨ ¬ inSomeBand address) →
      (writeStep s now connectOk resp address value).2.1 = none
      ∧ (writeStep s now connectOk resp address value).2.2 = .error .invalidAddress) := by
  have hno : ¬ (s.client.socket = false ∧ connectOk = false) := by
    rw [hconn]; rintro ⟨h, _⟩; cases h
  refine ⟨fun hb => ?_, fun hb => ?_, fun hb => ?_⟩
  · have hcl : writeClassify address value =
        some (if value.isMulti then WriteRequest.multipleRegisters (address - 40001) value
              else WriteRequest.singleRegister (address - 40001) value) := by
      unfold writeClassify
      rw [if_neg (by omega), if_pos hb]
    unfold writeStep
    rw [if_neg hno]
    simp only [hcl]
    cases resp <;> rfl
  · have hcl : writeClassify address value =
        some (if value.isMulti then WriteRequest.multipleRegisters (address - 400001) value
              else WriteRequest.singleRegister (address - 400001) value) := by
      unfold writeClassify
      rw [if_pos hb]
    unfold writeStep
    rw [if_neg hno]
    simp only [hcl]
    cases resp <;> rfl
  · have hcl : writeClassify address value = none := by
      unfold writeClassify
      unfold inSomeBand at hb
      rw [if_neg (by omega), if_neg (by omega), if_neg (by omega)]
    unfold writeStep
    rw [if_neg hno]
    simp only [hcl]
    refine ⟨?_, ?_⟩ <;> trivial

/-- Witness for C6: a connected client; `write(40001, 0x1234)` issues
WriteSingleRegister at offset 0 with the value, and `write(30001, 0)`
fails with the invalid-address error without a request. -/
theorem claim_C6_write_classification_w :
    ((writeStep ⟨[], ⟨true, none⟩⟩ 0 true .ok 40001 (.scalar 0x1234)).2.1 =
        some (if (MValue.scalar 0x1234).isMulti
              then WriteRequest.multipleRegisters (40001 - 40001) (.scalar 0x1234)
              else WriteRequest.singleRegister (40001 - 40001) (.scalar 0x1234)))
    ∧ ((writeStep ⟨[], ⟨true, none⟩⟩ 0 true .ok 30001 (.scalar 0)).2.1 = none
      ∧ (writeStep ⟨[], ⟨true, none⟩⟩ 0 true .ok 30001 (.scalar 0)).2.2 =
          .error .invalidAddress) :=
  ⟨(claim_C6_write_classification ⟨[], ⟨true, none⟩⟩ 0 true .ok 40001 (.scalar 0x1234)
      rfl).1 (by omega),
   (claim_C6_write_classification ⟨[], ⟨true, none⟩⟩ 0 true .ok 30001 (.scalar 0)
      rfl).2.2 (by omega)⟩

/-- C8: a `_write` call — whether it returns, or fails offline, with an
invalid address, or with a Modbus exception — leaves the register cache
`_data` unchanged; of the modelled transitions only the poll path's store
writes the cache. -/
theorem claim_C8_write_cache_frame (s : EngineState) (now : ℚ) (connectOk : Bool)
    (resp : WriteOutcome) (address : Nat) (value : MValue) :
    (writeStep s now connectOk resp address value).1.cache = s.cache := by
  unfold writeStep
  by_cases h : s.client.socket = false ∧ connectOk = false
  · rw [if_pos h]
  · rw [if_neg h]
    rcases writeClassify address value with _ | w
    · rfl
    · cases resp <;> rfl

/-! ## Theorems: the read path -/

/-- C9: a successful `_read` returns the sole element when the response
payload has exactly one bit/register, the full list when it has more than
one, and fails (the `values[0]` indexing raises) when it has none — so a
successful `_read` never returns an empty collection. -/
theorem claim_C9_read_result_shape {α : Type} :
    (∀ vs : List α, 1 < vs.length → readExtract vs = .ok (.vec vs))
    ∧ (∀ v : α, readExtract [v] = .ok (.scalar v))
    ∧ (readExtract ([] : List α) = .error .indexError)
    ∧ (∀ (connectOk : Bool) (address count : Nat) (resp : ReadResp α) (l : List α),
        readStep connectOk address count resp = .ok (.vec l) → l ≠ []) := by
  refine ⟨fun vs h => ?_, fun v => rfl, rfl, ?_⟩
  · unfold readExtract
    rw [if_pos h]
  · intro connectOk address count resp l h hnil
    subst hnil
    unfold readStep at h
    rcases connectOk with _ | _
    · simp at h
    · rw [if_neg (by simp)] at h
      rcases hrc : readClassify address count with _ | r
      · rw [hrc] at h
        simp at h
      · rw [hrc] at h
        rcases resp with _ | vs
        · simp at h
        · simp only [readExtract] at h
          rcases vs with _ | ⟨v, vs'⟩
          · simp at h
          · by_cases hlen : 1 < (v :: vs').length
            · rw [if_pos hlen] at h
              simp at h
            · rw [if_neg hlen] at h
              simp at h

/-- Witness for C9: a two-register payload comes back as the list, a
one-register payload as the scalar. -/
theorem claim_C9_read_result_shape_w :
    readExtract [5, 6] = Except.ok (ReadValue.vec [5, 6])
    ∧ readExtract [7] = Except.ok (ReadValue.scalar 7) :=
  ⟨(claim_C9_read_result_shape (α := Nat)).1 [5, 6] (by decide),
   (claim_C9_read_result_shape (α := Nat)).2.1 7⟩

end PlcModbus
